import Mathlib

/-!
Shallow embedding of the CPU stress-testing repository (src/stress_tests.py,
src/cpu_monitor.py, src/main.py) and proofs about its specification claims.

Numeric values that Python stores as floats are modelled as exact rationals,
Python ints as `Nat`/`Int`, Python lists as `List`, and `None`-able values as
`Option`.  Randomness (matrix entries, Monte-Carlo points) and completion
order of the process pool are modelled as explicit parameters.
-/

namespace StressTests

/-- Embeds the clamp `if start < 2: start = 2` at src/stress_tests.py:12-13. -/
def sieveStart (start : Nat) : Nat := if start < 2 then 2 else start

/-- Embeds Python `range(s, e, step)` for a positive `step`: the arithmetic
progression `s, s+step, ...` of values strictly below `e`. -/
def pyRangeStep (s e step : Nat) : List Nat :=
  List.range' s ((e - s + step - 1) / step) step

/-- Embeds `start_multiple = max(p * p, (start + p - 1) // p * p)` at
src/stress_tests.py:21, where `start'` is the already-clamped start. -/
def startMultiple (start' p : Nat) : Nat :=
  max (p * p) ((start' + p - 1) / p * p)

/-- Embeds the inner marking loop at src/stress_tests.py:24-25:
`for i in range(start_multiple, end + 1, p): sieve[i - start] = False`. -/
def markMultiples (start' e : Nat) (s : List Bool) (p : Nat) : List Bool :=
  (pyRangeStep (startMultiple start' p) (e + 1) p).foldl
    (fun s2 i => s2.set (i - start') false) s

/-- Embeds the sieve state after the outer loop
`for p in range(2, int(math.sqrt(end)) + 1)` at src/stress_tests.py:16-25,
started from `[True] * (end - start + 1)`.  Python's `int(math.sqrt(end))`
is modelled as `Nat.sqrt e` (they agree on all machine-realistic inputs). -/
def sieveList (start' e : Nat) : List Bool :=
  (List.range' 2 (Nat.sqrt e + 1 - 2)).foldl (markMultiples start' e)
    (List.replicate (e + 1 - start') true)

/-- Embeds `prime_sieve_chunk(start, end)` at src/stress_tests.py:10-33: the
collection loop appends `start + i` for every index `i` whose sieve entry is
still `True`. -/
def prime_sieve_chunk (start e : Nat) : List Nat :=
  ((List.range (sieveList (sieveStart start) e).length).filter
      (fun i => (sieveList (sieveStart start) e).getD i false)).map
    (fun i => sieveStart start + i)

/-- Dot product of two equally long rows, the scalar kernel of `np.dot`. -/
def dotList (r c : List Int) : Int := (List.zipWith (· * ·) r c).sum

/-- Reference dense matrix product (matrices as lists of rows):
row `i`, column `j` of the result is the dot product of row `i` of `a`
with column `j` of `b`. -/
def matMul (a b : List (List Int)) : List (List Int) :=
  a.map fun row => b.transpose.map fun col => dotList row col

/-- Embeds `matrix_multiply_chunk((a, b, start_row, end_row))` at
src/stress_tests.py:36-39: `np.dot(a[start_row:end_row], b)`. -/
def matrix_multiply_chunk (a b : List (List Int)) (startRow endRow : Nat) :
    List (List Int) :=
  ((a.drop startRow).take (endRow - startRow)).map
    fun row => b.transpose.map fun col => dotList row col

/-- Embeds the row-range partition built in `test_matrix_multiplication` at
src/stress_tests.py:150-156: `chunk_size = size // cpu_count`, chunk `i`
covers rows `[i*chunk_size, (i+1)*chunk_size)` except the last, which runs
to `size`. -/
def matrixChunks (size K : Nat) : List (Nat × Nat) :=
  (List.range K).map fun i =>
    (i * (size / K), if i < K - 1 then (i + 1) * (size / K) else size)

/-- Embeds the result collection and merge at src/stress_tests.py:159-167:
results are appended in **completion order** (`as_completed`), given here as
the explicit list `completionOrder` of chunk indices, and then vertically
stacked with `np.vstack`. -/
def matrixMergeByCompletion (a b : List (List Int)) (K : Nat)
    (completionOrder : List Nat) : List (List Int) :=
  ((completionOrder.map fun i => (matrixChunks a.length K).getD i (0, 0)).map
      fun se => matrix_multiply_chunk a b se.1 se.2).flatten

/-- Embeds the range partition built in `test_prime_generation` at
src/stress_tests.py:112-119: `chunk_size = max_number // cpu_count`, chunk
`i` is the inclusive range `[i*chunk_size + 1, (i+1)*chunk_size]` except the
last, which ends at `max_number`. -/
def primeChunks (maxNumber K : Nat) : List (Nat × Nat) :=
  (List.range K).map fun i =>
    (i * (maxNumber / K) + 1,
     if i < K - 1 then (i + 1) * (maxNumber / K) else maxNumber)

/-- The items of an inclusive range `(start, end)`, empty when `end < start`. -/
def rangeItems (se : Nat × Nat) : List Nat := List.range' se.1 (se.2 + 1 - se.1)

/-- Embeds `merge(left, right)` at src/stress_tests.py:75-90 (two-pointer
merge, ties `left[i] <= right[j]` favour the left element), parameterised by
the comparison so that the same algorithm can be observed on key-tagged
elements; Python's `<=` is polymorphic in exactly this way. -/
def mergeBy (le : α → α → Bool) : List α → List α → List α
  | [], ys => ys
  | x :: xs, [] => x :: xs
  | x :: xs, y :: ys =>
      if le x y then x :: mergeBy le xs (y :: ys)
      else y :: mergeBy le (x :: xs) ys
  termination_by l r => l.length + r.length

/-- The source's `merge` on integer lists. -/
def merge (l r : List Int) : List Int := mergeBy (fun a b : Int => decide (a ≤ b)) l r

/-- Embeds `merge_sort_parallel(arr, depth)` at src/stress_tests.py:53-72.
Both the process-pool branch (`len > 1000 and depth < 3`) and the sequential
branch recurse on `arr[:mid]` and `arr[mid:]` with `mid = len(arr) // 2` and
merge the results, so the returned value does not depend on `depth` and the
embedding drops it. -/
def mergeSortParallel (arr : List Int) : List Int :=
  if h : arr.length ≤ 1 then arr
  else
    merge (mergeSortParallel (arr.take (arr.length / 2)))
          (mergeSortParallel (arr.drop (arr.length / 2)))
  termination_by arr.length
  decreasing_by
  · simp only [List.length_take]; omega
  · simp only [List.length_drop]; omega

/-- Embeds `iterations_per_core = total_iterations // self.cpu_count` at
src/stress_tests.py:235. -/
def iterations_per_core (total K : Nat) : Nat := total / K

/-- The per-worker iteration counts submitted at src/stress_tests.py:239:
`cpu_count` submissions of `monte_carlo_pi_chunk(iterations_per_core)`. -/
def mcSubmissions (total K : Nat) : List Nat :=
  List.replicate K (iterations_per_core total K)

/-- Embeds `pi_estimate = 4 * total_inside / total_iterations` at
src/stress_tests.py:243, with the random per-worker inside-circle counts
abstracted as the explicit list `insideCounts` (the only property the code
guarantees about them is `count ≤ iterations`). -/
def pi_estimate (totalIterations : Nat) (insideCounts : List Nat) : ℚ :=
  4 * (insideCounts.sum : ℚ) / (totalIterations : ℚ)

end StressTests

namespace CpuMonitor

/-- Embeds the `CPUMetrics` dataclass at src/cpu_monitor.py:10-18; the
timestamp is the epoch-seconds value `m.timestamp.timestamp()` used by
`get_average_metrics`. -/
structure CPUMetrics where
  timestamp : ℚ
  cpu_percent : ℚ
  cpu_freq : ℚ
  memory_percent : ℚ
  memory_used : ℚ
  memory_total : ℚ
  temperature : Option ℚ
deriving DecidableEq, Repr

/-- Embeds `self.max_history_size = 1000` at src/cpu_monitor.py:27. -/
def maxHistorySize : Nat := 1000

/-- Embeds one history update of `_monitor_loop` at src/cpu_monitor.py:51-53:
`metrics_history.append(metrics)` followed by
`if len(metrics_history) > max_history_size: metrics_history.pop(0)`. -/
def pushMetric (cap : Nat) (hist : List CPUMetrics) (m : CPUMetrics) :
    List CPUMetrics :=
  let h := hist ++ [m]
  if cap < h.length then h.drop 1 else h

/-- Python's `round` ties-to-even rule on an exact rational: round to the
nearest integer, halves to the even neighbour. -/
def roundHalfEven (q : ℚ) : ℤ :=
  let f := q.floor
  if q - (f : ℚ) < 1 / 2 then f
  else if (1 : ℚ) / 2 < q - (f : ℚ) then f + 1
  else if f % 2 = 0 then f else f + 1

/-- Python's `round(x, 2)` on an exact rational value. -/
def pyRound2 (q : ℚ) : ℚ := ((roundHalfEven (q * 100) : ℤ) : ℚ) / 100

/-- Python's builtin `max` over a list, as used at src/cpu_monitor.py:143-144
(callers only apply it to nonempty lists). -/
def listMax : List ℚ → ℚ
  | [] => 0
  | x :: xs => xs.foldl max x

/-- Embeds the window filter at src/cpu_monitor.py:118-122:
`cutoff = now - duration_seconds` and the list comprehension keeping samples
with `m.timestamp.timestamp() > cutoff_time` (strict inequality). -/
def recentMetrics (history : List CPUMetrics) (now durationSeconds : ℚ) :
    List CPUMetrics :=
  history.filter fun m => now - durationSeconds < m.timestamp

/-- The aggregate record built by `get_average_metrics`
(src/cpu_monitor.py:136-145). -/
structure AverageMetrics where
  duration_seconds : ℚ
  sample_count : Nat
  avg_cpu_percent : ℚ
  avg_cpu_freq : ℚ
  avg_memory_percent : ℚ
  avg_temperature : Option ℚ
  max_cpu_percent : ℚ
  max_memory_percent : ℚ
deriving DecidableEq, Repr

/-- The temperature readings of the filtered samples (src/cpu_monitor.py:133):
`[m.temperature for m in recent_metrics if m.temperature is not None]`. -/
def tempReadings (history : List CPUMetrics) (now durationSeconds : ℚ) : List ℚ :=
  (recentMetrics history now durationSeconds).filterMap (fun m => m.temperature)

/-- Embeds `get_average_metrics(duration_seconds)` at src/cpu_monitor.py:112-145.
The empty dict `{}` returned for an empty history or an empty filtered set is
modelled as `none`.  Note the Python truthiness in
`round(avg_temp, 2) if avg_temp else None`: an average temperature that is
exactly `0.0` is reported as `None`, just like an absent one. -/
def get_average_metrics (history : List CPUMetrics) (now durationSeconds : ℚ) :
    Option AverageMetrics :=
  if history = [] then none
  else if recentMetrics history now durationSeconds = [] then none
  else
    some
      { duration_seconds := durationSeconds
        sample_count := (recentMetrics history now durationSeconds).length
        avg_cpu_percent :=
          pyRound2 (((recentMetrics history now durationSeconds).map (fun m => m.cpu_percent)).sum
            / ((recentMetrics history now durationSeconds).length : ℚ))
        avg_cpu_freq :=
          pyRound2 (((recentMetrics history now durationSeconds).map (fun m => m.cpu_freq)).sum
            / ((recentMetrics history now durationSeconds).length : ℚ))
        avg_memory_percent :=
          pyRound2 (((recentMetrics history now durationSeconds).map (fun m => m.memory_percent)).sum
            / ((recentMetrics history now durationSeconds).length : ℚ))
        avg_temperature :=
          if tempReadings history now durationSeconds = [] then none
          else if (tempReadings history now durationSeconds).sum
              / ((tempReadings history now durationSeconds).length : ℚ) = 0 then none
          else some (pyRound2 ((tempReadings history now durationSeconds).sum
              / ((tempReadings history now durationSeconds).length : ℚ)))
        max_cpu_percent :=
          listMax ((recentMetrics history now durationSeconds).map (fun m => m.cpu_percent))
        max_memory_percent :=
          listMax ((recentMetrics history now durationSeconds).map (fun m => m.memory_percent)) }

/-- Sample constructor used by concrete test inputs: timestamp, cpu percent
and temperature vary, the remaining fields are fixed at zero. -/
def mkSample (t c : ℚ) (temp : Option ℚ) : CPUMetrics :=
  ⟨t, c, 0, 0, 0, 0, temp⟩

end CpuMonitor

namespace MainApp

/-- Observable effects of `execute_stress_test` (src/main.py:153-221) on the
monitor and the results store, in program order. -/
inductive StressEvent where
  | startMonitoring
  | runWorkload (kind : String)
  | raiseUnknownKind
  | stopMonitoring
  | storeResult
  | storeError
deriving DecidableEq, Repr

/-- The five kind strings dispatched by the `if/elif` chain at
src/main.py:170-179. -/
def knownTestTypes : List String :=
  ["prime", "matrix", "fibonacci", "sorting", "monte_carlo"]

/-- Embeds the control flow of `execute_stress_test(test_type, params)` at
src/main.py:153-221 as an event trace: monitoring is started first
(src/main.py:167); a known kind then runs its workload, stops monitoring and
stores the combined result; an unknown kind raises
`ValueError(f"Unknown test type: ...")` (src/main.py:181), whose handler
stops monitoring while building the error record and stores it
(src/main.py:203-212). -/
def execute_stress_test (testType : String) : List StressEvent :=
  StressEvent.startMonitoring ::
    (if testType ∈ knownTestTypes then
      [StressEvent.runWorkload testType, StressEvent.stopMonitoring,
       StressEvent.storeResult]
    else
      [StressEvent.raiseUnknownKind, StressEvent.stopMonitoring,
       StressEvent.storeError])

end MainApp

open StressTests CpuMonitor MainApp

/-! ## C1 — matrix-multiplication merge order -/

/-- C1: the merge at src/stress_tests.py:159-167 stacks the row blocks in
completion order without re-sorting by range index.  With `A = [[1,0],[0,2]]`,
`B` the identity and 2 workers, the completion order `[1,0]` is a permutation
of the submission order, yet the merged matrix differs from `A·B`, while the
submission order `[0,1]` reproduces `A·B`. -/
theorem matrix_merge_completion_order_bug :
    ([1, 0] : List Nat).Perm (List.range 2)
    ∧ matrixMergeByCompletion [[1, 0], [0, 2]] [[1, 0], [0, 1]] 2 [1, 0]
        ≠ matMul [[1, 0], [0, 2]] [[1, 0], [0, 1]]
    ∧ matrixMergeByCompletion [[1, 0], [0, 2]] [[1, 0], [0, 1]] 2 [0, 1]
        = matMul [[1, 0], [0, 2]] [[1, 0], [0, 1]] :=
  ⟨by decide, by decide, by decide⟩

/-! ## C2 — Monte Carlo iteration split and estimate -/

/-- C2 (counterexample): at `total_iterations = 10` and `K = 3` workers each
worker gets 3 iterations, and with one inside-circle hit per worker the code's
estimate `4·Σ/total_iterations = 6/5` differs from the claimed
`4·Σ/(K·iterations_per_worker) = 4/3`. -/
theorem monte_carlo_estimate_denominator_cx :
    iterations_per_core 10 3 = 3
    ∧ (∀ c ∈ ([1, 1, 1] : List Nat), c ≤ iterations_per_core 10 3)
    ∧ ([1, 1, 1] : List Nat).length = 3
    ∧ pi_estimate 10 [1, 1, 1]
        ≠ 4 * ((([1, 1, 1] : List Nat).sum : ℚ))
            / ((3 * iterations_per_core 10 3 : Nat) : ℚ) := by
  refine ⟨rfl, by decide, rfl, ?_⟩
  norm_num [pi_estimate, iterations_per_core]

/-- C2 (amended): each of the `K` workers is submitted exactly
`⌊total/K⌋` iterations (the remainder is dropped), and the returned estimate
is `4·Σinside / total_iterations`; this coincides with the claimed
`4·Σinside / (K·iterations_per_worker)` exactly when `K` divides
`total_iterations`. -/
theorem monte_carlo_iterations_and_estimate (total K : Nat) (counts : List Nat)
    (hK : 1 ≤ K) (hlen : counts.length = K) :
    (mcSubmissions total K).length = K
    ∧ (∀ n ∈ mcSubmissions total K, n = total / K)
    ∧ pi_estimate total counts = 4 * (counts.sum : ℚ) / ((total : Nat) : ℚ)
    ∧ (K ∣ total →
        pi_estimate total counts
          = 4 * (counts.sum : ℚ) / ((K * (total / K) : Nat) : ℚ)) := by
  refine ⟨by simp [mcSubmissions], ?_, rfl, ?_⟩
  · intro n hn
    simpa [iterations_per_core] using List.eq_of_mem_replicate hn
  · intro hdvd
    rw [Nat.mul_div_cancel' hdvd]
    rfl

/-- C2 witness: the amended statement instantiated at
`total = 12`, `K = 3`, per-worker counts `[4, 5, 6]`. -/
theorem monte_carlo_iterations_and_estimate_witness :
    (1 ≤ 3 ∧ ([4, 5, 6] : List Nat).length = 3)
    ∧ ((mcSubmissions 12 3).length = 3
       ∧ (∀ n ∈ mcSubmissions 12 3, n = 12 / 3)
       ∧ pi_estimate 12 [4, 5, 6]
           = 4 * ((([4, 5, 6] : List Nat).sum : ℚ)) / (((12 : Nat) : Nat) : ℚ)
       ∧ (3 ∣ 12 →
           pi_estimate 12 [4, 5, 6]
             = 4 * ((([4, 5, 6] : List Nat).sum : ℚ)) / ((3 * (12 / 3) : Nat) : ℚ))) :=
  ⟨⟨by decide, by decide⟩,
   monte_carlo_iterations_and_estimate 12 3 [4, 5, 6] (by decide) (by decide)⟩

/-! ## C7 — bounded metrics history -/

/-- Single step of the monitoring loop keeps the history within capacity. -/
theorem pushMetric_length_le (cap : Nat) (hist : List CPUMetrics)
    (m : CPUMetrics) (hlen : hist.length ≤ cap) :
    (pushMetric cap hist m).length ≤ cap := by
  simp only [pushMetric, List.length_append, List.length_cons]
  split <;> simp <;> omega

/-- C7: the history never exceeds the configured capacity (default 1000):
one loop iteration preserves the bound, any sequence of iterations preserves
it, and appending to a full history evicts exactly the oldest entry while
keeping the remaining entries in insertion order. -/
theorem metrics_history_bounded (cap : Nat) (hist : List CPUMetrics)
    (m : CPUMetrics) (samples : List CPUMetrics)
    (hcap : 0 < cap) (hlen : hist.length ≤ cap) :
    maxHistorySize = 1000
    ∧ (pushMetric cap hist m).length ≤ cap
    ∧ (samples.foldl (pushMetric cap) hist).length ≤ cap
    ∧ (hist.length = cap → pushMetric cap hist m = hist.drop 1 ++ [m]) := by
  refine ⟨rfl, pushMetric_length_le cap hist m hlen, ?_, ?_⟩
  · induction samples generalizing hist with
    | nil => simpa using hlen
    | cons s rest ih =>
        simpa using ih (pushMetric cap hist s) (pushMetric_length_le cap hist s hlen)
  · intro hfull
    have h1 : cap < (hist ++ [m]).length := by
      simp [hfull]
    simp only [pushMetric, if_pos h1]
    exact List.drop_append_of_le_length (by omega)

/-- C7 witness: capacity 2, a full two-element history, one eviction step. -/
theorem metrics_history_bounded_witness :
    (0 < 2
     ∧ ([mkSample 1 10 none, mkSample 2 20 none] : List CPUMetrics).length ≤ 2)
    ∧ (maxHistorySize = 1000
       ∧ (pushMetric 2 [mkSample 1 10 none, mkSample 2 20 none]
            (mkSample 3 30 none)).length ≤ 2
       ∧ (([mkSample 4 40 none]).foldl (pushMetric 2)
            [mkSample 1 10 none, mkSample 2 20 none]).length ≤ 2
       ∧ (([mkSample 1 10 none, mkSample 2 20 none] : List CPUMetrics).length = 2 →
           pushMetric 2 [mkSample 1 10 none, mkSample 2 20 none] (mkSample 3 30 none)
             = ([mkSample 1 10 none, mkSample 2 20 none] : List CPUMetrics).drop 1
               ++ [mkSample 3 30 none])) :=
  ⟨⟨by decide, by decide⟩,
   metrics_history_bounded 2 [mkSample 1 10 none, mkSample 2 20 none]
     (mkSample 3 30 none) [mkSample 4 40 none] (by decide) (by decide)⟩

/-! ## C10 — unknown workload kind -/

/-- C10 (counterexample): for the unknown kind string `"bogus"`, the event
trace of `execute_stress_test` does contain `startMonitoring` — the sampler
is started at src/main.py:167 before the kind dispatch raises at
src/main.py:181, so the rejection does not happen before sampling starts. -/
theorem unknown_kind_starts_sampler_cx :
    ("bogus" ∉ knownTestTypes)
    ∧ StressEvent.startMonitoring ∈ execute_stress_test "bogus" :=
  ⟨by decide, by decide⟩

/-- C10 (amended): an unknown kind string is rejected with the invalid-kind
error, but only after the telemetry sampler has been started; the error path
then stops the sampler before storing the error record, and no workload is
ever run for the request. -/
theorem unknown_kind_rejected_after_sampler_start (kind : String)
    (h : kind ∉ knownTestTypes) :
    execute_stress_test kind
      = [StressEvent.startMonitoring, StressEvent.raiseUnknownKind,
         StressEvent.stopMonitoring, StressEvent.storeError]
    ∧ StressEvent.runWorkload kind ∉ execute_stress_test kind := by
  constructor
  · simp [execute_stress_test, h]
  · simp [execute_stress_test, h]

/-- C10 witness: the amended statement instantiated at the kind `"bogus"`. -/
theorem unknown_kind_rejected_after_sampler_start_witness :
    ("bogus" ∉ knownTestTypes)
    ∧ (execute_stress_test "bogus"
        = [StressEvent.startMonitoring, StressEvent.raiseUnknownKind,
           StressEvent.stopMonitoring, StressEvent.storeError]
       ∧ StressEvent.runWorkload "bogus" ∉ execute_stress_test "bogus") :=
  ⟨by decide, unknown_kind_rejected_after_sampler_start "bogus" (by decide)⟩

/-! ## C8, C9 — windowed aggregation -/

/-- Folding `max` over a list yields the seed or one of the elements. -/
theorem foldl_max_mem (xs : List ℚ) : ∀ a : ℚ, xs.foldl max a = a ∨ xs.foldl max a ∈ xs := by
  induction xs with
  | nil => intro a; exact Or.inl rfl
  | cons y ys ih =>
      intro a
      rcases ih (max a y) with h | h
      · rcases max_choice a y with hm | hm
        · exact Or.inl (by simpa [hm] using h)
        · refine Or.inr ?_
          simp only [List.foldl_cons]
          rw [h, hm]
          exact List.mem_cons_self y ys
      · exact Or.inr (List.mem_cons_of_mem y (by simpa using h))

/-- The seed is bounded by the `max`-fold. -/
theorem le_foldl_max (xs : List ℚ) : ∀ a : ℚ, a ≤ xs.foldl max a := by
  induction xs with
  | nil => intro a; simp
  | cons y ys ih =>
      intro a
      exact le_trans (le_max_left a y) (by simpa using ih (max a y))

/-- Every list element is bounded by the `max`-fold. -/
theorem mem_le_foldl_max (xs : List ℚ) :
    ∀ (a z : ℚ), z ∈ xs → z ≤ xs.foldl max a := by
  induction xs with
  | nil => intro a z hz; cases hz
  | cons y ys ih =>
      intro a z hz
      rcases List.mem_cons.1 hz with rfl | hz
      · exact le_trans (le_max_right a z) (by simpa using le_foldl_max ys (max a z))
      · simpa using ih (max a y) z hz

/-- Python's `max` over a nonempty list returns an element of the list. -/
theorem listMax_mem (x : ℚ) (xs : List ℚ) : listMax (x :: xs) ∈ x :: xs := by
  rcases foldl_max_mem xs x with h | h
  · simp only [listMax]
    rw [h]
    exact List.mem_cons_self x xs
  · simp only [listMax]
    exact List.mem_cons_of_mem x h

/-- Python's `max` over a nonempty list dominates every element. -/
theorem le_listMax (x : ℚ) (xs : List ℚ) :
    ∀ z ∈ x :: xs, z ≤ listMax (x :: xs) := by
  intro z hz
  rcases List.mem_cons.1 hz with rfl | hz
  · simpa [listMax] using le_foldl_max xs z
  · simpa [listMax] using mem_le_foldl_max xs x z hz

/-- C8 (amended): `get_average_metrics` returns the empty result when the
history is empty or when no sample qualifies; a sample qualifies when its
timestamp is **strictly greater** than `now - window_seconds`; when a result
is returned its `sample_count` is the number of qualifying samples, the
average fields are the arithmetic means of the qualifying samples' fields
rounded half-to-even to two decimal places, and the max fields are the exact
maxima of the qualifying samples' fields. -/
theorem average_metrics_window_spec (history : List CPUMetrics) (now dur : ℚ) :
    get_average_metrics ([] : List CPUMetrics) now dur = none
    ∧ (recentMetrics history now dur = [] → get_average_metrics history now dur = none)
    ∧ ∀ r, get_average_metrics history now dur = some r →
        r.duration_seconds = dur
        ∧ r.sample_count = (recentMetrics history now dur).length
        ∧ r.avg_cpu_percent = pyRound2
            (((recentMetrics history now dur).map (fun m => m.cpu_percent)).sum
              / ((recentMetrics history now dur).length : ℚ))
        ∧ r.avg_cpu_freq = pyRound2
            (((recentMetrics history now dur).map (fun m => m.cpu_freq)).sum
              / ((recentMetrics history now dur).length : ℚ))
        ∧ r.avg_memory_percent = pyRound2
            (((recentMetrics history now dur).map (fun m => m.memory_percent)).sum
              / ((recentMetrics history now dur).length : ℚ))
        ∧ r.max_cpu_percent ∈ (recentMetrics history now dur).map (fun m => m.cpu_percent)
        ∧ (∀ z ∈ (recentMetrics history now dur).map (fun m => m.cpu_percent),
            z ≤ r.max_cpu_percent)
        ∧ r.max_memory_percent ∈ (recentMetrics history now dur).map (fun m => m.memory_percent)
        ∧ (∀ z ∈ (recentMetrics history now dur).map (fun m => m.memory_percent),
            z ≤ r.max_memory_percent) := by
  refine ⟨by simp [get_average_metrics], ?_, ?_⟩
  · intro hrec
    by_cases hh : history = []
    · rw [get_average_metrics, if_pos hh]
    · rw [get_average_metrics, if_neg hh, if_pos hrec]
  · intro r hr
    by_cases hh : history = []
    · rw [get_average_metrics, if_pos hh] at hr
      exact absurd hr (by simp)
    · by_cases hrec : recentMetrics history now dur = []
      · rw [get_average_metrics, if_neg hh, if_pos hrec] at hr
        exact absurd hr (by simp)
      · rw [get_average_metrics, if_neg hh, if_neg hrec] at hr
        injection hr with hr
        subst hr
        have hmapc : (recentMetrics history now dur).map (fun m => m.cpu_percent) ≠ [] := by
          simpa using hrec
        have hmapm : (recentMetrics history now dur).map (fun m => m.memory_percent) ≠ [] := by
          simpa using hrec
        obtain ⟨yc, ysc, hc⟩ := List.exists_cons_of_ne_nil hmapc
        obtain ⟨ym, ysm, hm⟩ := List.exists_cons_of_ne_nil hmapm
        refine ⟨rfl, rfl, rfl, rfl, rfl, ?_, ?_, ?_, ?_⟩
        · show listMax ((recentMetrics history now dur).map (fun m => m.cpu_percent)) ∈ _
          rw [hc]; exact listMax_mem yc ysc
        · intro z hz
          show z ≤ listMax ((recentMetrics history now dur).map (fun m => m.cpu_percent))
          rw [hc] at hz ⊢
          exact le_listMax yc ysc z hz
        · show listMax ((recentMetrics history now dur).map (fun m => m.memory_percent)) ∈ _
          rw [hm]; exact listMax_mem ym ysm
        · intro z hz
          show z ≤ listMax ((recentMetrics history now dur).map (fun m => m.memory_percent))
          rw [hm] at hz ⊢
          exact le_listMax ym ysm z hz

/-- C8 witness: the amended statement applied to a two-sample history inside
a 10-second window ending at time 10, projecting the fields of the returned
aggregate. -/
theorem average_metrics_window_spec_witness :
    get_average_metrics [mkSample 1 10 none, mkSample 5 20 none] 10 10
      = some ⟨10, 2, 15, 0, 0, none, 20, 0⟩
    ∧ ((10 : ℚ) = 10
       ∧ (2 : Nat) = (recentMetrics [mkSample 1 10 none, mkSample 5 20 none] 10 10).length
       ∧ (15 : ℚ) = pyRound2
           (((recentMetrics [mkSample 1 10 none, mkSample 5 20 none] 10 10).map
              (fun m => m.cpu_percent)).sum
             / ((recentMetrics [mkSample 1 10 none, mkSample 5 20 none] 10 10).length : ℚ))
       ∧ (20 : ℚ) ∈ (recentMetrics [mkSample 1 10 none, mkSample 5 20 none] 10 10).map
           (fun m => m.cpu_percent)) := by
  have hgam : get_average_metrics [mkSample 1 10 none, mkSample 5 20 none] 10 10
      = some ⟨10, 2, 15, 0, 0, none, 20, 0⟩ := by
    norm_num [get_average_metrics, recentMetrics, tempReadings, mkSample, pyRound2,
      roundHalfEven, Rat.floor_def', listMax, List.filterMap_cons]
    exact ⟨by simp, by simp⟩
  have h := (average_metrics_window_spec [mkSample 1 10 none, mkSample 5 20 none] 10 10).2.2
    ⟨10, 2, 15, 0, 0, none, 20, 0⟩ hgam
  exact ⟨hgam, h.1, h.2.1, h.2.2.1, h.2.2.2.2.2.1⟩

/-- C8 (counterexample): the claim as stated fails on the code in two ways.
A sample whose timestamp is exactly `now - window_seconds` satisfies the
claimed `≥` qualification but is dropped by the code's strict `>` filter, so
the result is empty; and a three-sample history with cpu percents 0, 0, 1
yields `avg_cpu_percent = 0.33`, which is the rounded — not the exact —
arithmetic mean `1/3`. -/
theorem average_metrics_claim_cx :
    (mkSample 0 10 none).timestamp ≥ 10 - 10
    ∧ get_average_metrics [mkSample 0 10 none] 10 10 = none
    ∧ get_average_metrics [mkSample 1 0 none, mkSample 2 0 none, mkSample 3 1 none] 10 10
        = some ⟨10, 3, 33 / 100, 0, 0, none, 1, 0⟩
    ∧ (33 / 100 : ℚ) ≠ (0 + 0 + 1) / 3 := by
  refine ⟨by norm_num [mkSample], ?_, ?_, by norm_num⟩
  · norm_num [get_average_metrics, recentMetrics, mkSample]
  · norm_num [get_average_metrics, recentMetrics, tempReadings, mkSample, pyRound2,
      roundHalfEven, Rat.floor_def', listMax, List.filterMap_cons]
    exact ⟨by simp, by simp⟩

/-- C9 (code bug): because of the Python truthiness test
`round(avg_temp, 2) if avg_temp else None` at src/cpu_monitor.py:142, a
qualifying sample whose temperature reading is exactly `0.0` produces an
**absent** `avg_temperature` field, while a nonzero reading produces the
present rounded mean; the claimed "present iff at least one qualifying
sample has a temperature reading" fails at temperature `0.0`. -/
theorem average_temperature_zero_dropped_bug :
    (mkSample 5 10 (some 0)).temperature = some 0
    ∧ (5 : ℚ) > 10 - 10
    ∧ tempReadings [mkSample 5 10 (some 0)] 10 10 = [0]
    ∧ get_average_metrics [mkSample 5 10 (some 0)] 10 10
        = some ⟨10, 1, 10, 0, 0, none, 10, 0⟩
    ∧ get_average_metrics [mkSample 5 10 (some 21)] 10 10
        = some ⟨10, 1, 10, 0, 0, some 21, 10, 0⟩ := by
  refine ⟨rfl, by norm_num, ?_, ?_, ?_⟩
  · norm_num [tempReadings, recentMetrics, mkSample, List.filterMap_cons]
  · norm_num [get_average_metrics, recentMetrics, tempReadings, mkSample, pyRound2,
      roundHalfEven, Rat.floor_def', listMax, List.filterMap_cons]
  · norm_num [get_average_metrics, recentMetrics, tempReadings, mkSample, pyRound2,
      roundHalfEven, Rat.floor_def', listMax, List.filterMap_cons]

/-! ## C3 — prime-generation partition -/

/-- Reading an element of a mapped index range. -/
theorem getD_map_range {α : Type} (f : Nat → α) (K i : Nat) (d : α) (h : i < K) :
    ((List.range K).map f).getD i d = f i := by
  rw [List.getD_eq_getElem?_getD, List.getElem?_map]
  simp [List.getElem?_range h]

/-- Stacking `j` contiguous ranges of width `c` starting at 1 covers
`[1, j*c]` in order. -/
theorem flatten_uniform_chunks (c : Nat) :
    ∀ j : Nat, ((List.range j).map (fun i => List.range' (i * c + 1) c)).flatten
      = List.range' 1 (j * c) := by
  intro j
  induction j with
  | zero => simp
  | succ j ih =>
    rw [List.range_succ, List.map_append, List.flatten_append, ih]
    have h := List.range'_append 1 (j * c) c 1
    simp only [one_mul] at h
    simp only [List.map_cons, List.map_nil, List.flatten_cons, List.flatten_nil,
      List.append_nil]
    rw [show j * c + 1 = 1 + j * c by omega, h]
    congr 1
    ring

/-- Width of a non-last chunk. -/
theorem chunk_width (i : Nat) : ∀ c : Nat, (i + 1) * c + 1 - (i * c + 1) = c := by
  intro c
  have h3 : (i + 1) * c = i * c + c := by ring
  omega

/-- Width of the last chunk: quotient plus remainder. -/
theorem last_width (N K : Nat) :
    ∀ c r : Nat, K * c + r = N → (K - 1) * c + c = K * c →
      N + 1 - ((K - 1) * c + 1) = c + r := by
  intro c r h1 h2
  omega

/-- The two partition blocks together cover `N` items. -/
theorem cover_split (N K : Nat) :
    ∀ c r : Nat, K * c + r = N → (K - 1) * c + c = K * c →
      N - (K - 1) * c + (K - 1) * c = N := by
  intro c r h1 h2
  omega

/-- C3: the partition built by `test_prime_generation` consists of exactly `K`
ranges whose items, concatenated in order, are precisely `1, 2, ..., N` — so
the ranges are contiguous, non-overlapping and cover the interval from the
lower bound 1 to `N` exactly once — and every range holds exactly `⌊N/K⌋`
items except the last, which additionally absorbs the remainder `N mod K`. -/
theorem prime_partition_ranges (N K : Nat) (hK : 1 ≤ K) :
    (primeChunks N K).length = K
    ∧ ((primeChunks N K).map rangeItems).flatten = List.range' 1 N
    ∧ (∀ i, i < K - 1 →
        (rangeItems ((primeChunks N K).getD i (1, 0))).length = N / K)
    ∧ (rangeItems ((primeChunks N K).getD (K - 1) (1, 0))).length
        = N / K + N % K := by
  have hc : K * (N / K) + N % K = N := Nat.div_add_mod N K
  have hmul : (K - 1) * (N / K) + N / K = K * (N / K) := by
    have h1 : K - 1 + 1 = K := Nat.succ_pred_eq_of_pos hK
    calc (K - 1) * (N / K) + N / K = (K - 1 + 1) * (N / K) := by ring
    _ = K * (N / K) := by rw [h1]
  refine ⟨by simp [primeChunks], ?_, ?_, ?_⟩
  · have hsplit : List.range K = List.range (K - 1) ++ [K - 1] := by
      conv_lhs => rw [show K = (K - 1) + 1 by omega]
      rw [List.range_succ]
    rw [primeChunks, List.map_map, hsplit, List.map_append, List.flatten_append]
    have hfirst : ((List.range (K - 1)).map
        ((fun se => rangeItems se) ∘ fun i =>
          (i * (N / K) + 1, if i < K - 1 then (i + 1) * (N / K) else N)))
        = (List.range (K - 1)).map (fun i => List.range' (i * (N / K) + 1) (N / K)) := by
      apply List.map_congr_left
      intro i hi
      have hi' : i < K - 1 := List.mem_range.mp hi
      simp only [Function.comp_apply, if_pos hi', rangeItems]
      rw [chunk_width i (N / K)]
    rw [hfirst, flatten_uniform_chunks]
    have hlast : ([K - 1].map
        ((fun se => rangeItems se) ∘ fun i =>
          (i * (N / K) + 1, if i < K - 1 then (i + 1) * (N / K) else N))).flatten
        = List.range' ((K - 1) * (N / K) + 1) (N - (K - 1) * (N / K)) := by
      simp only [List.map_cons, List.map_nil, List.flatten_cons, List.flatten_nil,
        List.append_nil, Function.comp_apply, if_neg (lt_irrefl (K - 1)), rangeItems]
      rw [show ∀ q : Nat, N + 1 - (q + 1) = N - q from fun q => by omega]
    rw [hlast]
    have happ := List.range'_append 1 ((K - 1) * (N / K)) (N - (K - 1) * (N / K)) 1
    simp only [one_mul] at happ
    rw [show (K - 1) * (N / K) + 1 = 1 + (K - 1) * (N / K) by omega, happ]
    congr 1
    exact cover_split N K (N / K) (N % K) hc hmul
  · intro i hi
    have hiK : i < K := by omega
    rw [primeChunks, getD_map_range _ K i (1, 0) hiK, if_pos hi, rangeItems,
      List.length_range']
    exact chunk_width i (N / K)
  · have hK1 : K - 1 < K := by omega
    rw [primeChunks, getD_map_range _ K (K - 1) (1, 0) hK1, if_neg (lt_irrefl (K - 1)),
      rangeItems, List.length_range']
    exact last_width N K (N / K) (N % K) hc hmul

/-- C3 witness: the partition statement instantiated at `N = 10`, `K = 3`
(chunks `[1,3]`, `[4,6]`, `[7,10]`). -/
theorem prime_partition_ranges_witness :
    (1 ≤ 3)
    ∧ ((primeChunks 10 3).length = 3
       ∧ ((primeChunks 10 3).map rangeItems).flatten = List.range' 1 10
       ∧ (∀ i, i < 3 - 1 →
           (rangeItems ((primeChunks 10 3).getD i (1, 0))).length = 10 / 3)
       ∧ (rangeItems ((primeChunks 10 3).getD (3 - 1) (1, 0))).length
           = 10 / 3 + 10 % 3) :=
  ⟨by decide, prime_partition_ranges 10 3 (by decide)⟩

/-! ## C4, C6 — merge and parallel merge sort -/

/-- The two-pointer merge permutes the concatenation of its inputs. -/
theorem mergeBy_perm (le : α → α → Bool) :
    ∀ l r : List α, (mergeBy le l r).Perm (l ++ r) := by
  intro l
  induction l with
  | nil => intro r; simp [mergeBy]
  | cons x xs ihl =>
    intro r
    induction r with
    | nil => simp [mergeBy]
    | cons y ys ihr =>
      rw [mergeBy]
      by_cases hle : le x y = true
      · rw [if_pos hle]
        exact List.Perm.cons x (ihl (y :: ys))
      · rw [if_neg hle]
        exact (List.Perm.cons y ihr).trans List.perm_middle.symm

/-- For a total, transitive boolean comparison, merging two sorted lists
yields a sorted list. -/
theorem mergeBy_sorted {α : Type} (le : α → α → Bool)
    (htot : ∀ a b, le a b = false → le b a = true)
    (htrans : ∀ a b c, le a b = true → le b c = true → le a c = true) :
    ∀ l r : List α, l.Pairwise (fun a b => le a b = true) →
      r.Pairwise (fun a b => le a b = true) →
      (mergeBy le l r).Pairwise (fun a b => le a b = true) := by
  intro l
  induction l with
  | nil => intro r _ hr; simpa [mergeBy] using hr
  | cons x xs ihl =>
    intro r
    induction r with
    | nil => intro hl _; simpa [mergeBy] using hl
    | cons y ys ihr =>
      intro hl hr
      rw [mergeBy]
      by_cases hle : le x y = true
      · rw [if_pos hle, List.pairwise_cons]
        constructor
        · intro z hz
          have hz' : z ∈ xs ++ (y :: ys) := (mergeBy_perm le xs (y :: ys)).mem_iff.mp hz
          rcases List.mem_append.mp hz' with h1 | h1
          · exact (List.pairwise_cons.mp hl).1 z h1
          · rcases List.mem_cons.mp h1 with rfl | h2
            · exact hle
            · exact htrans x y z hle ((List.pairwise_cons.mp hr).1 z h2)
        · exact ihl (y :: ys) (List.pairwise_cons.mp hl).2 hr
      · rw [if_neg hle]
        have hyx : le y x = true := htot x y (by simpa using hle)
        rw [List.pairwise_cons]
        constructor
        · intro z hz
          have hz' : z ∈ (x :: xs) ++ ys := (mergeBy_perm le (x :: xs) ys).mem_iff.mp hz
          rcases List.mem_append.mp hz' with h1 | h1
          · rcases List.mem_cons.mp h1 with rfl | h2
            · exact hyx
            · exact htrans y x z hyx ((List.pairwise_cons.mp hl).1 z h2)
          · exact (List.pairwise_cons.mp hr).1 z h1
        · exact ihr hl (List.pairwise_cons.mp hr).2

/-- The integer comparison used by the source's `merge` is total. -/
theorem int_le_total (a b : Int) :
    (fun a b : Int => decide (a ≤ b)) a b = false →
    (fun a b : Int => decide (a ≤ b)) b a = true := by
  intro h
  simp only [decide_eq_false_iff_not] at h
  simp only [decide_eq_true_eq]
  omega

/-- The integer comparison used by the source's `merge` is transitive. -/
theorem int_le_trans (a b c : Int) :
    (fun a b : Int => decide (a ≤ b)) a b = true →
    (fun a b : Int => decide (a ≤ b)) b c = true →
    (fun a b : Int => decide (a ≤ b)) a c = true := by
  intro h1 h2
  simp only [decide_eq_true_eq] at h1 h2 ⊢
  omega

/-- Converting the boolean pairwise relation to `Sorted`. -/
theorem pairwise_le_of_boolrel (l : List Int)
    (h : l.Pairwise (fun a b => (fun a b : Int => decide (a ≤ b)) a b = true)) :
    l.Sorted (· ≤ ·) :=
  h.imp (by intro a b hab; simpa using hab)

/-- Converting `Sorted` to the boolean pairwise relation. -/
theorem pairwise_boolrel_of_le (l : List Int) (h : l.Sorted (· ≤ ·)) :
    l.Pairwise (fun a b => (fun a b : Int => decide (a ≤ b)) a b = true) :=
  h.imp (by intro a b hab; simpa using hab)

/-- `merge_sort_parallel` returns a sorted permutation of its input
(induction on a length bound). -/
theorem mergeSortParallel_sorted_perm :
    ∀ (n : Nat) (l : List Int), l.length ≤ n →
      (mergeSortParallel l).Sorted (· ≤ ·) ∧ (mergeSortParallel l).Perm l := by
  intro n
  induction n with
  | zero =>
    intro l hl
    have hnil : l = [] := List.length_eq_zero.mp (by omega)
    subst hnil
    rw [mergeSortParallel]
    simp
  | succ n ih =>
    intro l hl
    rw [mergeSortParallel]
    by_cases h : l.length ≤ 1
    · rw [dif_pos h]
      refine ⟨?_, List.Perm.refl l⟩
      match l, h with
      | [], _ => exact List.sorted_nil
      | [x], _ => exact List.sorted_singleton x
    · rw [dif_neg h]
      have hta : (l.take (l.length / 2)).length ≤ n := by
        simp only [List.length_take]
        omega
      have hdr : (l.drop (l.length / 2)).length ≤ n := by
        simp only [List.length_drop]
        omega
      obtain ⟨hs1, hp1⟩ := ih (l.take (l.length / 2)) hta
      obtain ⟨hs2, hp2⟩ := ih (l.drop (l.length / 2)) hdr
      constructor
      · exact pairwise_le_of_boolrel _
          (mergeBy_sorted _ int_le_total int_le_trans _ _
            (pairwise_boolrel_of_le _ hs1) (pairwise_boolrel_of_le _ hs2))
      · refine (mergeBy_perm _ _ _).trans ?_
        refine (List.Perm.append hp1 hp2).trans ?_
        rw [List.take_append_drop]

/-- C4: for every input list of integers (in particular the sizes 0, 1, 999,
1000, 1001 and 50000 named by the spec), `merge_sort_parallel` returns
exactly the output of a reference fully sequential sort (Mathlib's insertion
sort) of the same input. -/
theorem mergeSortParallel_eq_sequential_sort (l : List Int) :
    mergeSortParallel l = List.insertionSort (· ≤ ·) l := by
  obtain ⟨hs, hp⟩ := mergeSortParallel_sorted_perm l.length l le_rfl
  exact List.eq_of_perm_of_sorted
    (hp.trans (List.perm_insertionSort (· ≤ ·) l).symm) hs
    (List.sorted_insertionSort (· ≤ ·) l)

/-- Stability of the two-pointer merge observed on key-tagged pairs compared
on the key alone: among output entries of a given key, the left-list entries
(in order) precede the right-list entries. -/
theorem mergeBy_filter_key (v : Int) :
    ∀ (l r : List (Int × Nat)), l.Pairwise (fun a b => a.1 ≤ b.1) →
      (mergeBy (fun a b : Int × Nat => decide (a.1 ≤ b.1)) l r).filter (fun p => p.1 == v)
        = l.filter (fun p => p.1 == v) ++ r.filter (fun p => p.1 == v) := by
  intro l
  induction l with
  | nil => intro r _; simp [mergeBy]
  | cons x xs ihl =>
    intro r
    induction r with
    | nil => intro _; simp [mergeBy]
    | cons y ys ihr =>
      intro hl
      rw [mergeBy]
      by_cases hxy : x.1 ≤ y.1
      · rw [if_pos (by simpa using hxy)]
        have hrec := ihl (y :: ys) (List.pairwise_cons.mp hl).2
        simp only [List.filter_cons] at hrec ⊢
        rw [hrec]
        split <;> rfl
      · rw [if_neg (by simpa using hxy)]
        have hrec := ihr hl
        by_cases hy : y.1 = v
        · have hxfilter : List.filter (fun p => p.1 == v) (x :: xs) = [] := by
            rw [List.filter_eq_nil_iff]
            intro p hp
            rcases List.mem_cons.mp hp with rfl | hp2
            · simp only [beq_iff_eq]
              omega
            · have hxp := (List.pairwise_cons.mp hl).1 p hp2
              simp only [beq_iff_eq]
              omega
          calc (y :: mergeBy (fun a b : Int × Nat => decide (a.1 ≤ b.1)) (x :: xs) ys).filter
                  (fun p => p.1 == v)
              = y :: (mergeBy (fun a b : Int × Nat => decide (a.1 ≤ b.1)) (x :: xs) ys).filter
                  (fun p => p.1 == v) := by
                simp [List.filter_cons, hy]
            _ = y :: ((x :: xs).filter (fun p => p.1 == v) ++ ys.filter (fun p => p.1 == v)) := by
                rw [hrec]
            _ = (x :: xs).filter (fun p => p.1 == v) ++ (y :: ys.filter (fun p => p.1 == v)) := by
                rw [hxfilter]
                rfl
            _ = (x :: xs).filter (fun p => p.1 == v) ++ (y :: ys).filter (fun p => p.1 == v) := by
                simp [List.filter_cons, hy]
        · calc (y :: mergeBy (fun a b : Int × Nat => decide (a.1 ≤ b.1)) (x :: xs) ys).filter
                  (fun p => p.1 == v)
              = (mergeBy (fun a b : Int × Nat => decide (a.1 ≤ b.1)) (x :: xs) ys).filter
                  (fun p => p.1 == v) := by
                simp [List.filter_cons, hy]
            _ = (x :: xs).filter (fun p => p.1 == v) ++ ys.filter (fun p => p.1 == v) := hrec
            _ = (x :: xs).filter (fun p => p.1 == v) ++ (y :: ys).filter (fun p => p.1 == v) := by
                simp [List.filter_cons, hy]

/-- C6: for already-sorted integer lists, `merge(left, right)` equals the
sorted concatenation (a reference sequential sort of `left ++ right`), and
the same two-pointer algorithm run on key-tagged pairs compared on the key
alone is stable: among output entries of each key `v`, the entries
originating from `left` (tag 0), in their original order, precede those from
`right` (tag 1). -/
theorem merge_sorted_concat_and_stable (l r : List Int)
    (hl : l.Sorted (· ≤ ·)) (hr : r.Sorted (· ≤ ·)) :
    merge l r = List.insertionSort (· ≤ ·) (l ++ r)
    ∧ ∀ v : Int,
        (mergeBy (fun a b : Int × Nat => decide (a.1 ≤ b.1))
            (l.map (fun z => (z, 0))) (r.map (fun z => (z, 1)))).filter (fun p => p.1 == v)
          = (l.map (fun z => (z, 0))).filter (fun p => p.1 == v)
            ++ (r.map (fun z => (z, 1))).filter (fun p => p.1 == v) := by
  constructor
  · refine List.eq_of_perm_of_sorted ?_ ?_ (List.sorted_insertionSort (· ≤ ·) (l ++ r))
    · exact (mergeBy_perm _ l r).trans (List.perm_insertionSort (· ≤ ·) (l ++ r)).symm
    · exact pairwise_le_of_boolrel _
        (mergeBy_sorted _ int_le_total int_le_trans l r
          (pairwise_boolrel_of_le l hl) (pairwise_boolrel_of_le r hr))
  · intro v
    exact mergeBy_filter_key v _ _ (List.pairwise_map.mpr hl)

/-- C6 witness: the statement applied to the sorted lists `[1, 2]` and
`[1, 3]`, which share the key 1. -/
theorem merge_sorted_concat_and_stable_witness :
    ([1, 2] : List Int).Sorted (· ≤ ·)
    ∧ ([1, 3] : List Int).Sorted (· ≤ ·)
    ∧ (merge [1, 2] [1, 3] = List.insertionSort (· ≤ ·) ([1, 2] ++ [1, 3])
       ∧ ∀ v : Int,
           (mergeBy (fun a b : Int × Nat => decide (a.1 ≤ b.1))
               (([1, 2] : List Int).map (fun z => (z, 0)))
               (([1, 3] : List Int).map (fun z => (z, 1)))).filter (fun p => p.1 == v)
             = (([1, 2] : List Int).map (fun z => (z, 0))).filter (fun p => p.1 == v)
               ++ (([1, 3] : List Int).map (fun z => (z, 1))).filter (fun p => p.1 == v)) :=
  ⟨by decide, by decide,
   merge_sorted_concat_and_stable [1, 2] [1, 3] (by decide) (by decide)⟩

/-! ## C5 -- segmented sieve of Eratosthenes -/

/-- Clearing an entry makes its default read `false` (also out of range). -/
theorem getD_set_self_false (l : List Bool) (i : Nat) :
    (l.set i false).getD i false = false := by
  rw [List.getD_eq_getElem?_getD, List.getElem?_set, if_pos rfl]
  split <;> simp

/-- Clearing one entry leaves the other entries unchanged. -/
theorem getD_set_ne (l : List Bool) (i j : Nat) (b : Bool) (h : i ≠ j) :
    (l.set i b).getD j false = l.getD j false := by
  rw [List.getD_eq_getElem?_getD, List.getElem?_set, if_neg h, ← List.getD_eq_getElem?_getD]

/-- Reading the mask after a loop of clears: an entry is the old value unless
some loop index mapped onto it. -/
theorem foldl_set_false_getD (f : Nat → Nat) :
    ∀ (ms : List Nat) (s : List Bool) (k : Nat),
      (ms.foldl (fun s2 i => s2.set (f i) false) s).getD k false
        = (s.getD k false && !(ms.any (fun i => f i == k))) := by
  intro ms
  induction ms with
  | nil => intro s k; simp
  | cons i t ih =>
    intro s k
    rw [List.foldl_cons, ih]
    by_cases h : f i = k
    · subst h
      rw [getD_set_self_false]
      simp
    · rw [getD_set_ne _ _ _ _ h]
      have hbeq : (f i == k) = false := beq_eq_false_iff_ne.mpr h
      simp [List.any_cons, hbeq]

/-- A loop of clears preserves the mask length. -/
theorem foldl_set_false_length (f : Nat → Nat) :
    ∀ (ms : List Nat) (s : List Bool),
      (ms.foldl (fun s2 i => s2.set (f i) false) s).length = s.length := by
  intro ms
  induction ms with
  | nil => intro s; rfl
  | cons i t ih => intro s; rw [List.foldl_cons, ih, List.length_set]

/-- Reading the mask after the outer loop over all candidate factors `p`. -/
theorem sieve_foldl_getD (start' e : Nat) :
    ∀ (ps : List Nat) (s : List Bool) (k : Nat),
      (ps.foldl (markMultiples start' e) s).getD k false
        = (s.getD k false &&
           !(ps.any (fun p => (pyRangeStep (startMultiple start' p) (e + 1) p).any
              (fun i => (i - start') == k)))) := by
  intro ps
  induction ps with
  | nil => intro s k; simp
  | cons p t ih =>
    intro s k
    rw [List.foldl_cons, ih, markMultiples, foldl_set_false_getD]
    simp [List.any_cons, Bool.not_or, Bool.and_assoc]

/-- The outer marking loop preserves the mask length. -/
theorem sieve_foldl_length (start' e : Nat) :
    ∀ (ps : List Nat) (s : List Bool),
      (ps.foldl (markMultiples start' e) s).length = s.length := by
  intro ps
  induction ps with
  | nil => intro s; rfl
  | cons p t ih =>
    intro s
    rw [List.foldl_cons, ih, markMultiples, foldl_set_false_length]

/-- The final mask keeps the size `end - start + 1` of the initial one. -/
theorem sieveList_length (start' e : Nat) :
    (sieveList start' e).length = e + 1 - start' := by
  rw [sieveList, sieve_foldl_length, List.length_replicate]

/-- Index bound for the ceiling division used by `pyRangeStep`. -/
theorem lt_ceil_div_iff (step : Nat) (hstep : 0 < step) (m j : Nat) :
    j < (m + step - 1) / step ↔ step * j < m := by
  constructor
  · intro h
    have h1 : j + 1 ≤ (m + step - 1) / step := h
    have h2 : (j + 1) * step ≤ m + step - 1 := (Nat.le_div_iff_mul_le hstep).mp h1
    have h3 : (j + 1) * step = step * j + step := by ring
    omega
  · intro h
    have h3 : (j + 1) * step = step * j + step := by ring
    have h1 : (j + 1) * step ≤ m + step - 1 := by omega
    exact (Nat.le_div_iff_mul_le hstep).mpr h1

/-- Membership in Python's `range(s, e, step)`: the values `s ≤ i < e`
congruent to `s` modulo `step`. -/
theorem mem_pyRangeStep {step : Nat} (hstep : 0 < step) (s e i : Nat) :
    i ∈ pyRangeStep s e step ↔ s ≤ i ∧ i < e ∧ step ∣ (i - s) := by
  rw [pyRangeStep, List.mem_range']
  constructor
  · rintro ⟨j, hj, rfl⟩
    have hlt := (lt_ceil_div_iff step hstep (e - s) j).mp hj
    exact ⟨Nat.le_add_right s _, by omega, ⟨j, by omega⟩⟩
  · rintro ⟨hsi, hie, ⟨j, hj⟩⟩
    refine ⟨j, ?_, by omega⟩
    rw [lt_ceil_div_iff step hstep]
    omega

/-- `start_multiple` is a multiple of `p` (both candidates are). -/
theorem dvd_startMultiple (start' p : Nat) : p ∣ startMultiple start' p := by
  rw [startMultiple]
  rcases max_choice (p * p) ((start' + p - 1) / p * p) with h | h <;> rw [h]
  · exact dvd_mul_left p p
  · exact dvd_mul_left p ((start' + p - 1) / p)

/-- `start_multiple` is at least the clamped range start. -/
theorem startMultiple_ge (start' p : Nat) (hp : 0 < p) :
    start' ≤ startMultiple start' p := by
  rw [startMultiple]
  refine le_trans ?_ (le_max_right _ _)
  have h1 := Nat.div_add_mod (start' + p - 1) p
  have h2 : (start' + p - 1) % p < p := Nat.mod_lt _ hp
  have h3 : p * ((start' + p - 1) / p) = (start' + p - 1) / p * p := Nat.mul_comm _ _
  omega

/-- The first multiple of `p` at or above `start'` is at most any multiple of
`p` that is at least `start'`. -/
theorem ceil_mul_le (start' p n : Nat) (hp : 0 < p) (hdvd : p ∣ n) (hn : start' ≤ n) :
    (start' + p - 1) / p * p ≤ n := by
  obtain ⟨m, rfl⟩ := hdvd
  have h3 : (m + 1) * p = p * m + p := by ring
  have h2 : start' + p - 1 < (m + 1) * p := by omega
  have h1 : (start' + p - 1) / p ≤ m := by
    have h4 := (Nat.div_lt_iff_lt_mul hp).mpr h2
    omega
  calc (start' + p - 1) / p * p ≤ m * p := Nat.mul_le_mul_right p h1
  _ = p * m := Nat.mul_comm m p

/-- For a multiple `n ≥ start'` of `p`, the marking loop reaches `n` exactly
when `p² ≤ n`. -/
theorem startMultiple_le_iff (start' p n : Nat) (hp : 0 < p) (hdvd : p ∣ n)
    (hn : start' ≤ n) : startMultiple start' p ≤ n ↔ p * p ≤ n := by
  constructor
  · intro h
    exact le_trans (le_max_left _ _) h
  · intro h
    rw [startMultiple]
    exact max_le h (ceil_mul_le start' p n hp hdvd hn)

/-- The inner loop for factor `p` clears mask entry `k` iff `start' + k` is a
multiple of `p` in `[start_multiple, end]`. -/
theorem hit_iff (start' e p k : Nat) (hp : 0 < p) :
    ((pyRangeStep (startMultiple start' p) (e + 1) p).any
        (fun i => (i - start') == k)) = true
      ↔ startMultiple start' p ≤ start' + k ∧ start' + k ≤ e ∧ p ∣ (start' + k) := by
  rw [List.any_eq_true]
  constructor
  · rintro ⟨i, hi, hik⟩
    have hmem := (mem_pyRangeStep hp _ _ i).mp hi
    have hge : start' ≤ i := le_trans (startMultiple_ge start' p hp) hmem.1
    have hik' : i - start' = k := by simpa using hik
    have hieq : i = start' + k := by omega
    subst hieq
    refine ⟨hmem.1, by omega, ?_⟩
    have hd1 := hmem.2.2
    have hd2 := dvd_startMultiple start' p
    have heq : start' + k
        = (start' + k - startMultiple start' p) + startMultiple start' p := by
      omega
    rw [heq]
    exact dvd_add hd1 hd2
  · rintro ⟨hsm, hle, hdvd⟩
    refine ⟨start' + k, ?_, by simp⟩
    rw [mem_pyRangeStep hp]
    exact ⟨hsm, by omega, Nat.dvd_sub' hdvd (dvd_startMultiple start' p)⟩

/-- A number `2 ≤ n ≤ e` has a factor `p` with `2 ≤ p ≤ √e` and `p² ≤ n` iff
it is composite. -/
theorem small_factor_iff_not_prime (e n : Nat) (h2 : 2 ≤ n) (hne : n ≤ e) :
    (∃ p, 2 ≤ p ∧ p ≤ Nat.sqrt e ∧ p ∣ n ∧ p * p ≤ n) ↔ ¬ n.Prime := by
  constructor
  · rintro ⟨p, hp2, hpe, hdvd, hpp⟩
    intro hprime
    rcases Nat.Prime.eq_one_or_self_of_dvd hprime p hdvd with h | h
    · omega
    · subst h
      have h3 : 2 * p ≤ p * p := Nat.mul_le_mul_right p hp2
      omega
  · intro hnp
    set P := n.minFac with hPdef
    have hprime : P.Prime := Nat.minFac_prime (by omega)
    have hdvd : P ∣ n := Nat.minFac_dvd n
    have hp2 : 2 ≤ P := hprime.two_le
    obtain ⟨m, hm⟩ := hdvd
    have hm2 : 2 ≤ m := by
      rcases Nat.lt_or_ge m 2 with h | h
      · interval_cases m
        · omega
        · rw [Nat.mul_one] at hm
          exact absurd (by rwa [← hm] at hprime) hnp
      · exact h
    have hmdvd : m ∣ n := by rw [hm]; exact dvd_mul_left m P
    have hmp : P ≤ m := Nat.minFac_le_of_dvd hm2 hmdvd
    have hppn : P * P ≤ n := by
      calc P * P ≤ P * m := Nat.mul_le_mul_left P hmp
      _ = n := hm.symm
    refine ⟨P, hp2, Nat.le_sqrt.mpr (le_trans hppn hne), ?_, hppn⟩
    rw [hPdef]
    exact Nat.minFac_dvd n

/-- The surviving mask entries are exactly the primes: entry `k` of the final
sieve reads `true` iff `start' + k` is prime. -/
theorem sieveList_getD (start' e : Nat) (h2 : 2 ≤ start') (k : Nat)
    (hk : k < e + 1 - start') :
    (sieveList start' e).getD k false = decide (Nat.Prime (start' + k)) := by
  have hne : start' + k ≤ e := by omega
  have hn2 : 2 ≤ start' + k := by omega
  have he2 : 2 ≤ e := by omega
  rw [sieveList, sieve_foldl_getD]
  have hrep : (List.replicate (e + 1 - start') true).getD k false = true := by
    rw [List.getD_eq_getElem?_getD, List.getElem?_replicate, if_pos hk]
    rfl
  rw [hrep, Bool.true_and]
  have hiff : ((List.range' 2 (Nat.sqrt e + 1 - 2)).any
      (fun p => (pyRangeStep (startMultiple start' p) (e + 1) p).any
        (fun i => (i - start') == k)) = true) ↔ ¬ (start' + k).Prime := by
    rw [List.any_eq_true, ← small_factor_iff_not_prime e (start' + k) hn2 hne]
    constructor
    · rintro ⟨p, hpmem, hhit⟩
      obtain ⟨j, hj, rfl⟩ := List.mem_range'.mp hpmem
      have hp2 : 2 ≤ 2 + 1 * j := by omega
      have hple : 2 + 1 * j ≤ Nat.sqrt e := by omega
      have h0p : 0 < 2 + 1 * j := by omega
      have hh := (hit_iff start' e _ k h0p).mp hhit
      refine ⟨2 + 1 * j, hp2, hple, hh.2.2, ?_⟩
      exact (startMultiple_le_iff start' _ _ h0p hh.2.2 (by omega)).mp hh.1
    · rintro ⟨p, hp2, hpe, hdvd, hpp⟩
      refine ⟨p, ?_, ?_⟩
      · rw [List.mem_range']
        exact ⟨p - 2, by omega, by omega⟩
      · rw [hit_iff start' e p k (by omega)]
        exact ⟨(startMultiple_le_iff start' p _ (by omega) hdvd (by omega)).mpr hpp,
          hne, hdvd⟩
  cases hany : ((List.range' 2 (Nat.sqrt e + 1 - 2)).any
      (fun p => (pyRangeStep (startMultiple start' p) (e + 1) p).any
        (fun i => (i - start') == k))) with
  | false =>
    have hprime : (start' + k).Prime := by
      by_contra hc
      have hcontra := hiff.mpr hc
      rw [hany] at hcontra
      exact Bool.false_ne_true hcontra
    simp [hprime]
  | true =>
    have hnp := hiff.mp hany
    simp [hnp]

/-- `prime_sieve_chunk(start, end)` returns exactly the primes in
`[max(start, 2), end]`, in increasing order. -/
theorem prime_sieve_chunk_eq (start e : Nat) :
    prime_sieve_chunk start e
      = (List.range' (sieveStart start) (e + 1 - sieveStart start)).filter
          (fun n => decide (Nat.Prime n)) := by
  have h2 : 2 ≤ sieveStart start := by rw [sieveStart]; split <;> omega
  rw [prime_sieve_chunk, sieveList_length, List.range'_eq_map_range, List.filter_map]
  congr 1
  apply List.filter_congr
  intro i hi
  have hik : i < e + 1 - sieveStart start := List.mem_range.mp hi
  rw [sieveList_getD _ _ h2 i hik]
  rfl

/-- C5: `prime_sieve_chunk(start, end)` — a boolean mask of size
`end - start + 1` cleared at the multiples of each `p ≤ √end` from
`max(p², ⌈start/p⌉·p)` — returns exactly the prime numbers in
`[max(start, 2), end]` in strictly increasing order; in particular the sieve
over `[2, 100]` yields exactly 25 primes, the largest being 97. -/
theorem prime_sieve_chunk_spec :
    (∀ start e, prime_sieve_chunk start e
        = (List.range' (sieveStart start) (e + 1 - sieveStart start)).filter
            (fun n => decide (Nat.Prime n)))
    ∧ (∀ start e, (prime_sieve_chunk start e).Pairwise (· < ·))
    ∧ (prime_sieve_chunk 2 100).length = 25
    ∧ (prime_sieve_chunk 2 100).getLast? = some 97 := by
  refine ⟨prime_sieve_chunk_eq, ?_, ?_, ?_⟩
  · intro start e
    rw [prime_sieve_chunk_eq]
    exact List.Pairwise.sublist (List.filter_sublist _) (List.pairwise_lt_range' _ _)
  · rw [prime_sieve_chunk_eq]
    decide
  · rw [prime_sieve_chunk_eq]
    decide
